import Mathlib

/-!
# Shallow embedding of the Bestia vault simulator (`src/vault.py`)

The vault's state and operations are translated directly from the Python
source.  Python `Decimal` values are modelled as exact rationals `ℚ`
(the source relies on arbitrary-precision decimal arithmetic; context
rounding is ignored, as the spec's own properties are stated "modulo
rounding").  Python `dict`s are modelled as insertion-ordered association
lists with first-occurrence lookup and replace-or-append update, which
matches `dict` semantics on the unique-key states Python can build.
Wall-clock reads (`time.time()`) become an explicit `now` parameter.
Operations that can raise return `Except`; mutating operations carry the
vault state at the moment the exception escapes (Python leaves the
partially mutated object behind), so error payloads are `Err × Vault`.
-/

/-- First-occurrence lookup in an association list, as for a Python dict. -/
def dictGet {α β : Type} [DecidableEq α] : List (α × β) → α → Option β
  | [], _ => none
  | e :: rest, k => if e.1 = k then some e.2 else dictGet rest k

/-- Lookup with a default value, as for Python `d.get(k, dflt)`. -/
def dictGetD {α β : Type} [DecidableEq α] (d : List (α × β)) (k : α) (dflt : β) : β :=
  (dictGet d k).getD dflt

/-- Replace the first binding of `k`, or append one, as for `d[k] = v`. -/
def dictInsert {α β : Type} [DecidableEq α] : List (α × β) → α → β → List (α × β)
  | [], k, v => [(k, v)]
  | e :: rest, k, v => if e.1 = k then (k, v) :: rest else e :: dictInsert rest k v

/-- The `ValueError`s (and one `TypeError`) the vault code can raise. -/
inductive Err : Type
  /-- Message "Not enough cash" (redeem). -/
  | notEnoughCash
  /-- Message "Name already present" (add_supported_asset). -/
  | namePresent
  /-- Message "Invalid threshold" (add_supported_asset, change_asset_threshold). -/
  | invalidThreshold
  /-- Message "Asset not present" (change_asset_threshold). -/
  | assetNotPresent
  /-- Message "Invalid asset price for ..." (rebalance, liquidate). -/
  | invalidAssetPrice
  /-- Message "Invalid asset" (get_asset_value, get_current_asset_threshold). -/
  | invalidAsset
  /-- Message "Invalid price" (get_asset_value, liquidate_asset). -/
  | invalidPrice
  /-- Message "Invalid time window" (get_inflow, get_outflow). -/
  | invalidTimeWindow
  /-- Message "Asset not supported" (liquidate_asset). -/
  | assetNotSupported
  /-- Message "Not enough asset amount" (liquidate_asset). -/
  | notEnoughAssetAmount
  /-- Message "No need to liquidate asset, enough cash available" (liquidate_asset). -/
  | noNeedToLiquidate
  /-- Python `KeyError` from `self.price_volatility[asset]` on a missing key. -/
  | keyError
  /-- Python `TypeError`: `liquidate_asset` calls `self.swing_pricing(asset, amount, False)`
      but `swing_pricing` accepts only `(self, asset, inflow)`. -/
  | typeErrorSwingPricingArity
  deriving DecidableEq, Repr

/-- The state of `class Vault` (`src/vault.py`, `__init__`).  The `debug`
and `name` fields only affect printing and are omitted.  Price histories
are `deque(maxlen=1000)`; since the code only ever appends a single
observation to a freshly created deque, the capacity bound never binds
and a plain list is faithful. -/
structure Vault : Type where
  cash : ℚ
  optimal_cash_threshold : ℚ
  liquidation_trigger_threshold : ℚ
  token_supply : ℚ
  assets : List (String × ℚ)
  asset_liquidity_value : List (String × ℚ)
  prices : List (String × ℚ)
  window : ℚ
  deposit_requests : List (ℚ × ℚ)
  withdrawal_requests : List (ℚ × ℚ)
  price_volatility : List (String × List (ℚ × ℚ))
  thresholds : List (String × ℚ)
  deriving DecidableEq, Repr

/-- Source `get_asset_value`: `prices[asset] * assets[asset]`, with the source's
membership checks. -/
def get_asset_value (v : Vault) (asset : String) : Except Err ℚ :=
  match dictGet v.assets asset with
  | none => .error .invalidAsset
  | some h =>
    match dictGet v.prices asset with
    | none => .error .invalidPrice
    | some p => .ok (p * h)

/-- The accumulator loop of `get_assets_value`: `total += get_asset_value(key)`
over the entries of `assets`. -/
def assetsValueLoop (v : Vault) : List (String × ℚ) → ℚ → Except Err ℚ
  | [], total => .ok total
  | e :: rest, total =>
    match get_asset_value v e.1 with
    | .error err => .error err
    | .ok x => assetsValueLoop v rest (total + x)

/-- Source `get_assets_value`: sum of `get_asset_value` over all registered assets. -/
def get_assets_value (v : Vault) : Except Err ℚ :=
  assetsValueLoop v v.assets 0

/-- Source `get_total_value`: `get_assets_value() + cash`. -/
def get_total_value (v : Vault) : Except Err ℚ :=
  match get_assets_value v with
  | .error e => .error e
  | .ok a => .ok (a + v.cash)

/-- Source `get_current_cash_threshold`: `0` if the total value is `0`, otherwise
`cash / total value`. -/
def get_current_cash_threshold (v : Vault) : Except Err ℚ :=
  match get_total_value v with
  | .error e => .error e
  | .ok tv => if tv = 0 then .ok 0 else .ok (v.cash / tv)

/-- Source `is_liquidable`: `get_current_cash_threshold() < liquidation_trigger_threshold`. -/
def is_liquidable (v : Vault) : Except Err Bool :=
  match get_current_cash_threshold v with
  | .error e => .error e
  | .ok r => .ok (decide (r < v.liquidation_trigger_threshold))

/-- Source `mint`: `cash += amount; token_supply += amount;
deposit_requests[time.time()] = amount; return amount`.  Infallible. -/
def mint (v : Vault) (now amount : ℚ) : ℚ × Vault :=
  (amount,
    { v with
      cash := v.cash + amount
      token_supply := v.token_supply + amount
      deposit_requests := dictInsert v.deposit_requests now amount })

/-- Source `redeem`: raises "Not enough cash" when `cash < amount`, else
`cash -= amount; token_supply -= amount;
withdrawal_requests[time.time()] = amount; return amount`. -/
def redeem (v : Vault) (now amount : ℚ) : Except (Err × Vault) (ℚ × Vault) :=
  if v.cash < amount then .error (.notEnoughCash, v)
  else
    .ok (amount,
      { v with
        cash := v.cash - amount
        token_supply := v.token_supply - amount
        withdrawal_requests := dictInsert v.withdrawal_requests now amount })

/-- Source `add_supported_asset`: duplicate-name and threshold checks, then
registers the asset with zero holdings and one seed price observation. -/
def add_supported_asset (v : Vault) (name : String) (liquidity_value price threshold now : ℚ) :
    Except (Err × Vault) (Unit × Vault) :=
  if (dictGet v.assets name).isSome then .error (.namePresent, v)
  else if (100 : ℚ) < threshold then .error (.invalidThreshold, v)
  else
    .ok ((),
      { v with
        assets := dictInsert v.assets name 0
        asset_liquidity_value := dictInsert v.asset_liquidity_value name liquidity_value
        price_volatility := dictInsert v.price_volatility name [(now, price)]
        prices := dictInsert v.prices name price
        thresholds := dictInsert v.thresholds name threshold })

/-- Source `change_asset_threshold`: membership and threshold checks, then a
field update. -/
def change_asset_threshold (v : Vault) (asset : String) (threshold : ℚ) :
    Except (Err × Vault) (Unit × Vault) :=
  if (dictGet v.assets asset).isNone then .error (.assetNotPresent, v)
  else if (100 : ℚ) < threshold then .error (.invalidThreshold, v)
  else .ok ((), { v with thresholds := dictInsert v.thresholds asset threshold })

/-- Source `set_asset_price`: replaces the asset's price history with a deque
holding one fresh observation and sets the price.  The source performs
no validation whatsoever (any asset name, any price), so the operation is
infallible. -/
def set_asset_price (v : Vault) (asset : String) (price now : ℚ) : Vault :=
  { v with
    price_volatility := dictInsert v.price_volatility asset [(now, price)]
    prices := dictInsert v.prices asset price }

/-- Source `set_asset_liquidity_value`: unvalidated field update; infallible. -/
def set_asset_liquidity_value (v : Vault) (asset : String) (value : ℚ) : Vault :=
  { v with asset_liquidity_value := dictInsert v.asset_liquidity_value asset value }

/-- The summation loop shared by `get_inflow` and `get_outflow`:
amounts with `key < min_time` are skipped, the rest are accumulated. -/
def flowLoop : List (ℚ × ℚ) → ℚ → ℚ → ℚ
  | [], _, total => total
  | e :: rest, minT, total =>
    if e.1 < minT then flowLoop rest minT total else flowLoop rest minT (total + e.2)

/-- Source `get_inflow`: raises "Invalid time window" when `window == 0` or
`now - window < 0`; otherwise the windowed deposit sum divided by the
window. -/
def get_inflow (v : Vault) (now : ℚ) : Except Err ℚ :=
  let minT := now - v.window
  if v.window = 0 ∨ minT < 0 then .error .invalidTimeWindow
  else .ok (flowLoop v.deposit_requests minT 0 / v.window)

/-- Source `get_outflow`: as `get_inflow`, over the withdrawal log. -/
def get_outflow (v : Vault) (now : ℚ) : Except Err ℚ :=
  let minT := now - v.window
  if v.window = 0 ∨ minT < 0 then .error .invalidTimeWindow
  else .ok (flowLoop v.withdrawal_requests minT 0 / v.window)

/-- The filtering loop of `get_price_volatility`: appends the price of
every observation with `timestamp >= min_time`. -/
def relevantLoop : List (ℚ × ℚ) → ℚ → List ℚ → List ℚ
  | [], _, acc => acc
  | e :: rest, minT, acc =>
    if minT ≤ e.1 then relevantLoop rest minT (acc ++ [e.2]) else relevantLoop rest minT acc

/-- Python's `sum` over a list of rationals (a left fold from `0`). -/
def pySum (l : List ℚ) : ℚ :=
  l.foldl (fun a b => a + b) 0

/-- Source `get_price_volatility`: windowed filter, `0` for fewer than two
observations, otherwise the square root of the population variance.
`deque.__getitem__` via `self.price_volatility[asset]` raises `KeyError`
for an unknown asset.  `Decimal.sqrt` is modelled as the exact real
square root. -/
noncomputable def get_price_volatility (v : Vault) (asset : String) (now : ℚ) : Except Err ℝ :=
  match dictGet v.price_volatility asset with
  | none => .error .keyError
  | some hist =>
    let minT := now - v.window
    let ps := relevantLoop hist minT []
    if ps.length < 2 then .ok 0
    else
      let mean := pySum ps / (ps.length : ℚ)
      let variance := pySum (ps.map (fun p => (p - mean) ^ 2)) / (ps.length : ℚ)
      .ok (Real.sqrt (variance : ℝ))

/-- The per-asset loop of `rebalance`: validates the price, then adds
`(excess_cash / assetCount) / price` to the asset's holdings.  On the
`ValueError`, the error payload carries the holdings mutated so far. -/
def rebalanceLoop (prices : List (String × ℚ)) (excess : ℚ) (n : ℕ) :
    List String → List (String × ℚ) → Except (Err × List (String × ℚ)) (List (String × ℚ))
  | [], assets => .ok assets
  | k :: ks, assets =>
    if dictGetD prices k 0 = 0 then .error (.invalidAssetPrice, assets)
    else
      let cashFor := excess / (n : ℚ)
      let q := cashFor / dictGetD prices k 0
      rebalanceLoop prices excess n ks (dictInsert assets k (dictGetD assets k 0 + q))

/-- Source `rebalance`: no-op when the cash ratio is at most the optimal
threshold; otherwise distributes the excess cash equally over all
registered assets and decrements `cash` by the full excess once, after
the loop. -/
def rebalance (v : Vault) : Except (Err × Vault) (Unit × Vault) :=
  match get_current_cash_threshold v with
  | .error e => .error (e, v)
  | .ok r =>
    if r ≤ v.optimal_cash_threshold then .ok ((), v)
    else
      match get_total_value v with
      | .error e => .error (e, v)
      | .ok tv =>
        let desired := v.optimal_cash_threshold * tv
        let excess := v.cash - desired
        match rebalanceLoop v.prices excess v.assets.length (v.assets.map Prod.fst) v.assets with
        | .error (e, a) => .error (e, { v with assets := a })
        | .ok a => .ok ((), { v with assets := a, cash := v.cash - excess })

/-- Insertion step of a stable ascending sort by the second component:
the inserted element goes before the first element with an equal or
larger value, so earlier-listed elements stay first on ties, matching
Python's stable `sorted`. -/
def insertSorted (x : String × ℚ) : List (String × ℚ) → List (String × ℚ)
  | [] => [x]
  | y :: ys => if y.2 < x.2 then y :: insertSorted x ys else x :: y :: ys

/-- Python `sorted(self.asset_liquidity_value.items(), key=lambda item: item[1])`:
ascending by liquidity value. -/
def sortByVal : List (String × ℚ) → List (String × ℚ)
  | [] => []
  | x :: xs => insertSorted x (sortByVal xs)

/-- The per-asset loop of `liquidate`, over the keys of the
liquidity-value dict sorted ascending.  Breaks once `cash >= required_cash`;
skips zero-holding assets; raises on a missing/zero price (carrying the
state mutated so far); fully liquidates an asset when even all of it
cannot reach `desired_cash`, otherwise sells exactly
`(desired_cash - cash) / price`. -/
def liquidateLoop (prices : List (String × ℚ)) (desired required : ℚ) :
    List String → ℚ → List (String × ℚ) →
    Except (Err × ℚ × List (String × ℚ)) (ℚ × List (String × ℚ))
  | [], cash, assets => .ok (cash, assets)
  | k :: ks, cash, assets =>
    if required ≤ cash then .ok (cash, assets)
    else
      let h := dictGetD assets k 0
      if h = 0 then liquidateLoop prices desired required ks cash assets
      else
        let p := dictGetD prices k 0
        if p = 0 then .error (.invalidAssetPrice, cash, assets)
        else
          let maxCash := h * p
          let stillRequired := desired - cash
          if maxCash + cash < desired then
            liquidateLoop prices desired required ks (cash + maxCash) (dictInsert assets k 0)
          else
            let q := stillRequired / p
            liquidateLoop prices desired required ks (cash + q * p) (dictInsert assets k (h - q))

/-- Source `liquidate` (protocol-driven): no-op when not liquidable; otherwise
raises cash towards `optimal_cash_threshold * total_value` by selling
assets in ascending liquidity-value order.  After the loop the source
recomputes `get_total_value()` (for its debug output), which can itself
raise and is therefore modelled. -/
def liquidate (v : Vault) : Except (Err × Vault) (Unit × Vault) :=
  match is_liquidable v with
  | .error e => .error (e, v)
  | .ok false => .ok ((), v)
  | .ok true =>
    match get_total_value v with
    | .error e => .error (e, v)
    | .ok tv =>
      let desired := v.optimal_cash_threshold * tv
      let required := desired - v.cash
      match liquidateLoop v.prices desired required
          ((sortByVal v.asset_liquidity_value).map Prod.fst) v.cash v.assets with
      | .error (e, c, a) => .error (e, { v with cash := c, assets := a })
      | .ok (c, a) =>
        match get_total_value { v with cash := c, assets := a } with
        | .error e => .error (e, { v with cash := c, assets := a })
        | .ok _ => .ok ((), { v with cash := c, assets := a })

/-- Source `liquidate_asset` (user-driven): after the four validations the
source evaluates `self.swing_pricing(asset, amount, False)` — but
`swing_pricing` is declared as `swing_pricing(self, asset, inflow)`, so
this call raises `TypeError` (three positional arguments passed to a
two-argument method) before any state is read or mutated by it.  The
function body never mutates the vault and has no `return` statement. -/
def liquidate_asset (v : Vault) (asset : String) (amount : ℚ) :
    Except (Err × Vault) (ℚ × Vault) :=
  match dictGet v.assets asset with
  | none => .error (.assetNotSupported, v)
  | some h =>
    match dictGet v.prices asset with
    | none => .error (.invalidPrice, v)
    | some p =>
      if h < amount then .error (.notEnoughAssetAmount, v)
      else
        let assetValue := amount * p
        if assetValue ≤ v.cash then .error (.noNeedToLiquidate, v)
        else .error (.typeErrorSwingPricingArity, v)

/-- The vault state an operation leaves behind, on both the normal and
the exceptional exit (a Python exception leaves the mutated object). -/
def resVault {α : Type} : Except (Err × Vault) (α × Vault) → Vault
  | .ok x => x.2
  | .error e => e.2

/-- The `(cash, assets)` pair a liquidation loop leaves behind on either
exit. -/
def resPair : Except (Err × ℚ × List (String × ℚ)) (ℚ × List (String × ℚ)) →
    ℚ × List (String × ℚ)
  | .ok x => x
  | .error e => e.2

/-- The holdings list a rebalance loop leaves behind on either exit. -/
def resAssets : Except (Err × List (String × ℚ)) (List (String × ℚ)) → List (String × ℚ)
  | .ok a => a
  | .error e => e.2

/-! ## Association-list lemmas -/

theorem dictGet_mem {α β : Type} [DecidableEq α] :
    ∀ {d : List (α × β)} {k : α} {v : β}, dictGet d k = some v → (k, v) ∈ d := by
  intro d
  induction d with
  | nil => intro k v h; simp [dictGet] at h
  | cons e rest ih =>
    intro k v h
    obtain ⟨e1, e2⟩ := e
    simp only [dictGet] at h
    by_cases he : e1 = k
    · rw [if_pos he] at h
      subst he
      have hv : e2 = v := Option.some.inj h
      subst hv
      exact List.mem_cons_self _ _
    · rw [if_neg he] at h
      exact List.mem_cons_of_mem _ (ih h)

theorem mem_dictInsert {α β : Type} [DecidableEq α] :
    ∀ {d : List (α × β)} {k : α} {v : β} {e : α × β},
      e ∈ dictInsert d k v → e ∈ d ∨ e = (k, v) := by
  intro d
  induction d with
  | nil =>
    intro k v e h
    simp only [dictInsert, List.mem_singleton] at h
    exact Or.inr h
  | cons hd rest ih =>
    intro k v e h
    by_cases hh : hd.1 = k
    · simp only [dictInsert, hh, if_pos] at h
      rcases List.mem_cons.mp h with h1 | h2
      · exact Or.inr h1
      · exact Or.inl (List.mem_cons_of_mem _ h2)
    · simp only [dictInsert, hh, if_neg, not_false_iff] at h
      rcases List.mem_cons.mp h with h1 | h2
      · exact Or.inl (h1 ▸ List.mem_cons_self _ _)
      · rcases ih h2 with h3 | h4
        · exact Or.inl (List.mem_cons_of_mem _ h3)
        · exact Or.inr h4

theorem dictGet_dictInsert_self {α β : Type} [DecidableEq α] :
    ∀ (d : List (α × β)) (k : α) (v : β), dictGet (dictInsert d k v) k = some v := by
  intro d
  induction d with
  | nil => intro k v; simp [dictInsert, dictGet]
  | cons hd rest ih =>
    intro k v
    by_cases hh : hd.1 = k
    · simp [dictInsert, hh, dictGet]
    · simp [dictInsert, hh, dictGet, ih]

theorem dictGet_dictInsert_ne {α β : Type} [DecidableEq α] :
    ∀ (d : List (α × β)) (k j : α) (v : β), j ≠ k →
      dictGet (dictInsert d k v) j = dictGet d j := by
  intro d
  induction d with
  | nil =>
    intro k j v hjk
    have hkj : ¬ (k = j) := fun h => hjk h.symm
    simp [dictInsert, dictGet, hkj]
  | cons hd rest ih =>
    intro k j v hjk
    obtain ⟨h1, h2⟩ := hd
    by_cases hh : h1 = k
    · subst hh
      have hj : ¬ (h1 = j) := fun h => hjk h.symm
      simp [dictInsert, dictGet, hj]
    · simp [dictInsert, dictGet, hh, ih k j v hjk]

theorem dictGetD_nonneg {d : List (String × ℚ)} (h : ∀ e ∈ d, 0 ≤ e.2) (k : String) :
    0 ≤ dictGetD d k 0 := by
  unfold dictGetD
  cases hg : dictGet d k with
  | none => simp
  | some x => simpa using h _ (dictGet_mem hg)

theorem dictGet_append_notMem {α β : Type} [DecidableEq α] :
    ∀ (pre rest : List (α × β)) (k : α), k ∉ pre.map Prod.fst →
      dictGet (pre ++ rest) k = dictGet rest k := by
  intro pre
  induction pre with
  | nil => intro rest k _; rfl
  | cons hd tl ih =>
    intro rest k hk
    have h1 : hd.1 ≠ k := fun h => hk (by simp [h])
    have h2 : k ∉ tl.map Prod.fst := fun h => hk (by simp [h])
    simp [dictGet, h1, ih rest k h2]

theorem dictInsert_append_notMem {α β : Type} [DecidableEq α] :
    ∀ (pre rest : List (α × β)) (k : α) (h0 v : β), k ∉ pre.map Prod.fst →
      dictInsert (pre ++ (k, h0) :: rest) k v = pre ++ (k, v) :: rest := by
  intro pre
  induction pre with
  | nil => intro rest k h0 v _; simp [dictInsert]
  | cons hd tl ih =>
    intro rest k h0 v hk
    have h1 : hd.1 ≠ k := fun h => hk (by simp [h])
    have h2 : k ∉ tl.map Prod.fst := fun h => hk (by simp [h])
    simp [dictInsert, h1, ih rest k h0 v h2]

theorem nodup_dictGet {α β : Type} [DecidableEq α] :
    ∀ (l : List (α × β)), (l.map Prod.fst).Nodup → ∀ e ∈ l, dictGet l e.1 = some e.2 := by
  intro l
  induction l with
  | nil => intro _ e he; exact absurd he (List.not_mem_nil e)
  | cons hd tl ih =>
    intro hnd e he
    have hnd' := hnd
    rw [List.map_cons, List.nodup_cons] at hnd'
    rcases List.mem_cons.mp he with h1 | h2
    · subst h1; simp [dictGet]
    · have hne : hd.1 ≠ e.1 := by
        intro hcontra
        exact hnd'.1 (hcontra ▸ List.mem_map_of_mem Prod.fst h2)
      simp [dictGet, hne, ih hnd'.2 e h2]

/-! ## Sum lemmas -/

theorem sumMapAdd (l : List (String × ℚ)) (f g : String × ℚ → ℚ) :
    (l.map (fun x => f x + g x)).sum = (l.map f).sum + (l.map g).sum := by
  induction l with
  | nil => simp
  | cons hd tl ih => simp [ih]; ring

theorem sumMapConst (l : List (String × ℚ)) (c : ℚ) :
    (l.map (fun _ => c)).sum = (l.length : ℚ) * c := by
  induction l with
  | nil => simp
  | cons hd tl ih => simp [ih]; ring

theorem pySum_eq_sum : ∀ (l : List ℚ), pySum l = l.sum := by
  have haux : ∀ (l : List ℚ) (a : ℚ), l.foldl (fun x y => x + y) a = a + l.sum := by
    intro l
    induction l with
    | nil => intro a; simp
    | cons hd tl ih => intro a; simp [ih]; ring
  intro l
  simpa using haux l 0

theorem flowLoop_eq : ∀ (l : List (ℚ × ℚ)) (minT acc : ℚ),
    flowLoop l minT acc = acc + ((l.filter (fun e => minT ≤ e.1)).map Prod.snd).sum := by
  intro l
  induction l with
  | nil => intro minT acc; simp [flowLoop]
  | cons hd tl ih =>
    intro minT acc
    by_cases h : hd.1 < minT
    · have h' : ¬ (minT ≤ hd.1) := not_le.mpr h
      simp [flowLoop, h, h', List.filter, ih]
    · have h' : minT ≤ hd.1 := not_lt.mp h
      simp [flowLoop, h, h', List.filter, ih]
      ring

theorem relevantLoop_eq : ∀ (l : List (ℚ × ℚ)) (minT : ℚ) (acc : List ℚ),
    relevantLoop l minT acc = acc ++ (l.filter (fun e => minT ≤ e.1)).map Prod.snd := by
  intro l
  induction l with
  | nil => intro minT acc; simp [relevantLoop]
  | cons hd tl ih =>
    intro minT acc
    by_cases h : minT ≤ hd.1
    · simp [relevantLoop, h, List.filter, ih]
    · simp [relevantLoop, h, List.filter, ih]

/-! ## Concrete states used by witnesses and counterexamples -/

/-- An empty vault with the thresholds of the module-level vault in
`src/vault.py` (`optimal = 0.2`, `trigger = 0.05`, `window = 100`). -/
def baseVault : Vault :=
  { cash := 0
    optimal_cash_threshold := 1/5
    liquidation_trigger_threshold := 1/20
    token_supply := 0
    assets := []
    asset_liquidity_value := []
    prices := []
    window := 100
    deposit_requests := []
    withdrawal_requests := []
    price_volatility := []
    thresholds := [] }

/-! ## C1 — `isLiquidable` -/

/-- C1 counterexample: in the empty vault the total value is `0`, yet
`is_liquidable` returns `true` (the code compares the cash ratio, which
is `0` there, against the positive trigger threshold and has no
`totalValue > 0` conjunct), contradicting the claim that it returns
`false` whenever `totalValue = 0`. -/
theorem c1_is_liquidable_counterexample :
    get_total_value baseVault = .ok 0 ∧ is_liquidable baseVault = .ok true := by
  constructor
  · norm_num [get_total_value, get_assets_value, assetsValueLoop, baseVault]
  · norm_num [is_liquidable, get_current_cash_threshold, get_total_value,
      get_assets_value, assetsValueLoop, baseVault]

/-- The cash ratio as a function of the total value: `0` when the total
value is `0`, `cash / totalValue` otherwise. -/
theorem cash_threshold_of_total (v : Vault) (tv : ℚ) (htv : get_total_value v = .ok tv) :
    get_current_cash_threshold v = .ok (if tv = 0 then 0 else v.cash / tv) := by
  unfold get_current_cash_threshold
  rw [htv]
  by_cases h0 : tv = 0
  · simp [h0]
  · simp [h0]

/-- C1 (amended): `isLiquidable()` returns true iff
`cashRatio < liquidationTriggerThreshold`, where `cashRatio` is `0` when
`totalValue = 0` and `cash / totalValue` otherwise; there is no
`totalValue > 0` conjunct, so with `totalValue = 0` it returns true
whenever the trigger threshold is positive. -/
theorem c1_is_liquidable_iff (v : Vault) (tv r : ℚ)
    (htv : get_total_value v = .ok tv)
    (hr : get_current_cash_threshold v = .ok r) :
    is_liquidable v = .ok (decide (r < v.liquidation_trigger_threshold)) ∧
    (tv = 0 → r = 0) ∧
    (tv ≠ 0 → r = v.cash / tv) ∧
    (tv = 0 → 0 < v.liquidation_trigger_threshold → is_liquidable v = .ok true) := by
  have hform := cash_threshold_of_total v tv htv
  rw [hr] at hform
  have hrval : r = if tv = 0 then 0 else v.cash / tv := Except.ok.inj hform
  have hliq : is_liquidable v = .ok (decide (r < v.liquidation_trigger_threshold)) := by
    unfold is_liquidable
    rw [hr]
  have hzero : tv = 0 → r = 0 := fun h0 => by rw [hrval, if_pos h0]
  refine ⟨hliq, hzero, fun h0 => by rw [hrval, if_neg h0], fun h0 htrig => ?_⟩
  rw [hliq, hzero h0]
  simp [htrig]

/-- C1 witness: the amended theorem applied to the empty vault. -/
theorem c1_is_liquidable_iff_witness : is_liquidable baseVault = .ok true := by
  have h1 : get_total_value baseVault = .ok 0 := by
    norm_num [get_total_value, get_assets_value, assetsValueLoop, baseVault]
  have h2 : get_current_cash_threshold baseVault = .ok 0 := by
    norm_num [get_current_cash_threshold, get_total_value, get_assets_value,
      assetsValueLoop, baseVault]
  exact (c1_is_liquidable_iff baseVault 0 0 h1 h2).2.2.2 rfl (by norm_num [baseVault])

/-! ## C4 — `liquidate_asset` -/

/-- A vault holding 10 units of one asset priced at 2, with no cash, so
that `liquidate_asset` passes all four validations. -/
def vaultC4 : Vault :=
  { baseVault with
    assets := [("AAA", 10)]
    asset_liquidity_value := [("AAA", 1)]
    prices := [("AAA", 2)]
    price_volatility := [("AAA", [(0, 2)])]
    thresholds := [("AAA", 1/2)] }

/-- C4: on an input passing every validation (registered asset with a
registered price, holdings ≥ amount, cash < amount × price) the source
reaches `self.swing_pricing(asset, amount, False)` — a call with three
positional arguments to the two-argument method
`swing_pricing(self, asset, inflow)` — and therefore raises `TypeError`
instead of returning the `(userPart, protocolPart)` pair; no state is
mutated.  (Even absent the arity slip, the function has no `return`
statement, so it could never return the pair.) -/
theorem c4_liquidate_asset_raises :
    liquidate_asset vaultC4 "AAA" 5 = .error (.typeErrorSwingPricingArity, vaultC4) ∧
    dictGetD vaultC4.assets "AAA" 0 = 10 ∧ dictGetD vaultC4.prices "AAA" 0 = 2 ∧
    vaultC4.cash = 0 := by
  refine ⟨?_, by simp [dictGetD, dictGet, vaultC4, baseVault],
    by simp [dictGetD, dictGet, vaultC4, baseVault], rfl⟩
  have ha : dictGet vaultC4.assets "AAA" = some 10 := by
    simp [dictGet, vaultC4, baseVault]
  have hp : dictGet vaultC4.prices "AAA" = some 2 := by
    simp [dictGet, vaultC4, baseVault]
  simp only [liquidate_asset, ha, hp]
  norm_num [vaultC4, baseVault]

/-! ## C5 — `redeem` -/

/-- C5: `redeem(amount)` raises "Not enough cash" exactly when
`cash < amount`, and the error carries the state completely unchanged;
for every `amount ≤ cash` it returns `amount` and decreases cash and
token supply each by exactly `amount`, leaving assets, prices and the
deposit log untouched. -/
theorem c5_redeem_atomic (v : Vault) (now amount : ℚ) :
    (v.cash < amount → redeem v now amount = .error (.notEnoughCash, v)) ∧
    (amount ≤ v.cash → ∃ v', redeem v now amount = .ok (amount, v') ∧
      v'.cash = v.cash - amount ∧
      v'.token_supply = v.token_supply - amount ∧
      v'.assets = v.assets ∧
      v'.prices = v.prices ∧
      v'.deposit_requests = v.deposit_requests ∧
      v'.withdrawal_requests = dictInsert v.withdrawal_requests now amount) := by
  constructor
  · intro h
    simp [redeem, h]
  · intro h
    have h' : ¬ (v.cash < amount) := not_lt.mpr h
    refine ⟨{ v with
      cash := v.cash - amount
      token_supply := v.token_supply - amount
      withdrawal_requests := dictInsert v.withdrawal_requests now amount },
      ?_, rfl, rfl, rfl, rfl, rfl, rfl⟩
    simp [redeem, h']

/-- A vault with 10 cash and 10 token supply. -/
def vaultC5 : Vault := { baseVault with cash := 10, token_supply := 10 }

/-- C5 witness: both branches of the theorem at concrete inputs. -/
theorem c5_redeem_atomic_witness :
    redeem vaultC5 1 20 = .error (.notEnoughCash, vaultC5) ∧
    (∃ v', redeem vaultC5 1 4 = .ok (4, v') ∧
      v'.cash = vaultC5.cash - 4 ∧
      v'.token_supply = vaultC5.token_supply - 4 ∧
      v'.assets = vaultC5.assets ∧
      v'.prices = vaultC5.prices ∧
      v'.deposit_requests = vaultC5.deposit_requests ∧
      v'.withdrawal_requests = dictInsert vaultC5.withdrawal_requests 1 4) :=
  ⟨(c5_redeem_atomic vaultC5 1 20).1 (by norm_num [vaultC5, baseVault]),
   (c5_redeem_atomic vaultC5 1 4).2 (by norm_num [vaultC5, baseVault])⟩

/-! ## C6 — `mint` -/

/-- A vault whose deposit log already records a deposit at timestamp 5. -/
def vaultC6 : Vault := { baseVault with deposit_requests := [(5, 3)] }

/-- C6 counterexample: `deposit_requests` is a dict keyed by timestamp
(`self.deposit_requests[time.time()] = amount`), so minting at a
timestamp at which a deposit is already recorded **overwrites** that
entry; the log afterwards does not contain every previously recorded
deposit, contradicting the claim. -/
theorem c6_mint_counterexample :
    (0 : ℚ) < 7 ∧
    ((5 : ℚ), (3 : ℚ)) ∈ vaultC6.deposit_requests ∧
    ((5 : ℚ), (3 : ℚ)) ∉ (mint vaultC6 5 7).2.deposit_requests := by
  refine ⟨by norm_num, by simp [vaultC6, baseVault], ?_⟩
  simp only [mint, vaultC6, baseVault, dictInsert]
  norm_num

/-- C6 (amended): for every `amount > 0`, `mint` returns `amount`,
increases cash and tokenSupply each by exactly `amount`, and records the
deposit by setting the deposit-log entry at the current timestamp to
`amount`: entries at every other timestamp are preserved, while a deposit
previously recorded at exactly the current timestamp is overwritten (the
log is a dict keyed by timestamp, not an append-only list). -/
theorem c6_mint_amended (v : Vault) (now amount : ℚ) (_hpos : 0 < amount) :
    (mint v now amount).1 = amount ∧
    (mint v now amount).2.cash = v.cash + amount ∧
    (mint v now amount).2.token_supply = v.token_supply + amount ∧
    (mint v now amount).2.deposit_requests = dictInsert v.deposit_requests now amount ∧
    dictGet (mint v now amount).2.deposit_requests now = some amount ∧
    (∀ t, t ≠ now → dictGet (mint v now amount).2.deposit_requests t =
      dictGet v.deposit_requests t) := by
  refine ⟨rfl, rfl, rfl, rfl, ?_, ?_⟩
  · exact dictGet_dictInsert_self v.deposit_requests now amount
  · intro t ht
    exact dictGet_dictInsert_ne v.deposit_requests now t amount ht

/-- C6 witness: the amended theorem at a concrete input. -/
theorem c6_mint_amended_witness :
    (mint vaultC6 5 7).2.cash = vaultC6.cash + 7 ∧
    dictGet (mint vaultC6 5 7).2.deposit_requests 5 = some 7 :=
  ⟨(c6_mint_amended vaultC6 5 7 (by norm_num)).2.1,
   (c6_mint_amended vaultC6 5 7 (by norm_num)).2.2.2.2.1⟩

/-! ## C9 — `get_inflow` / `get_outflow` -/

/-- A vault with a negative window. -/
def vaultC9 : Vault := { baseVault with window := -1 }

/-- C9 counterexample: the source checks `self.window == 0`, not
`window <= 0`; with `window = -1` and `now = 0` we get
`min_time = 1 ≥ 0`, so neither guard fires and both rates return
`0 / (-1) = 0` instead of raising `InvalidWindow` as the claim
(`window ≤ 0` raises) requires. -/
theorem c9_flow_counterexample :
    vaultC9.window ≤ 0 ∧
    get_inflow vaultC9 0 = .ok 0 ∧
    get_outflow vaultC9 0 = .ok 0 := by
  refine ⟨by norm_num [vaultC9, baseVault], ?_, ?_⟩
  · norm_num [get_inflow, vaultC9, baseVault, flowLoop]
  · norm_num [get_outflow, vaultC9, baseVault, flowLoop]

/-- C9 (amended): `getInflow(now)` / `getOutflow(now)` raise
`InvalidWindow` iff `window = 0` or `now − window < 0` (the code compares
the window to zero with equality, so a negative window is accepted);
otherwise each returns the sum of the respective flow-event amounts with
timestamp ≥ now − window, divided by the window. -/
theorem c9_flow_rates (v : Vault) (now : ℚ) :
    (get_inflow v now = .error .invalidTimeWindow ↔
      (v.window = 0 ∨ now - v.window < 0)) ∧
    (¬ (v.window = 0 ∨ now - v.window < 0) →
      get_inflow v now =
        .ok (((v.deposit_requests.filter (fun e => now - v.window ≤ e.1)).map
          Prod.snd).sum / v.window)) ∧
    (get_outflow v now = .error .invalidTimeWindow ↔
      (v.window = 0 ∨ now - v.window < 0)) ∧
    (¬ (v.window = 0 ∨ now - v.window < 0) →
      get_outflow v now =
        .ok (((v.withdrawal_requests.filter (fun e => now - v.window ≤ e.1)).map
          Prod.snd).sum / v.window)) := by
  by_cases hc : v.window = 0 ∨ now - v.window < 0
  · have herr_in : get_inflow v now = .error .invalidTimeWindow := by
      simp only [get_inflow]
      rw [if_pos hc]
    have herr_out : get_outflow v now = .error .invalidTimeWindow := by
      simp only [get_outflow]
      rw [if_pos hc]
    exact ⟨⟨fun _ => hc, fun _ => herr_in⟩, fun h => absurd hc h,
      ⟨fun _ => hc, fun _ => herr_out⟩, fun h => absurd hc h⟩
  · have hin : get_inflow v now =
        .ok (((v.deposit_requests.filter (fun e => now - v.window ≤ e.1)).map
          Prod.snd).sum / v.window) := by
      simp only [get_inflow]
      rw [if_neg hc, flowLoop_eq, zero_add]
    have hout : get_outflow v now =
        .ok (((v.withdrawal_requests.filter (fun e => now - v.window ≤ e.1)).map
          Prod.snd).sum / v.window) := by
      simp only [get_outflow]
      rw [if_neg hc, flowLoop_eq, zero_add]
    refine ⟨⟨fun h => ?_, fun h => absurd h hc⟩, fun _ => hin,
      ⟨fun h => ?_, fun h => absurd h hc⟩, fun _ => hout⟩
    · rw [hin] at h
      exact absurd h (by simp)
    · rw [hout] at h
      exact absurd h (by simp)

/-- A vault with window 10 and one in-window and one out-of-window
deposit. -/
def vaultC9W : Vault :=
  { baseVault with window := 10, deposit_requests := [(15, 3), (5, 2)] }

/-- C9 witness: at `now = 20`, only the deposit at timestamp 15 is inside
the window, so the inflow rate is `3 / 10`. -/
theorem c9_flow_rates_witness : get_inflow vaultC9W 20 = .ok (3/10) := by
  have h := (c9_flow_rates vaultC9W 20).2.1 (by norm_num [vaultC9W, baseVault])
  rw [h]
  norm_num [vaultC9W, baseVault, List.filter_cons, decide_eq_true_eq]

/-! ## C10 — `set_asset_price` -/

/-- C10: `setAssetPrice(asset, price)` succeeds on every input — any
asset name, registered or not, and any price, including `price ≤ 0`
(the function body performs no validation and dict assignment cannot
fail, which is why `set_asset_price` is total in this embedding).  It
replaces the asset's price history with the single fresh observation
`(now, price)`, sets its price, leaves every other name's price and
history unchanged, and touches neither holdings, liquidity values,
thresholds, cash nor supply — so an unregistered name gains price and
history entries without being registered. -/
theorem c10_set_asset_price_total (v : Vault) (asset : String) (price now : ℚ) :
    (set_asset_price v asset price now).prices = dictInsert v.prices asset price ∧
    dictGet (set_asset_price v asset price now).prices asset = some price ∧
    (∀ a, a ≠ asset →
      dictGet (set_asset_price v asset price now).prices a = dictGet v.prices a) ∧
    (set_asset_price v asset price now).price_volatility =
      dictInsert v.price_volatility asset [(now, price)] ∧
    dictGet (set_asset_price v asset price now).price_volatility asset =
      some [(now, price)] ∧
    (∀ a, a ≠ asset →
      dictGet (set_asset_price v asset price now).price_volatility a =
        dictGet v.price_volatility a) ∧
    (set_asset_price v asset price now).assets = v.assets ∧
    (set_asset_price v asset price now).asset_liquidity_value = v.asset_liquidity_value ∧
    (set_asset_price v asset price now).thresholds = v.thresholds ∧
    (set_asset_price v asset price now).cash = v.cash ∧
    (set_asset_price v asset price now).token_supply = v.token_supply := by
  refine ⟨rfl, ?_, ?_, rfl, ?_, ?_, rfl, rfl, rfl, rfl, rfl⟩
  · exact dictGet_dictInsert_self v.prices asset price
  · intro a ha
    exact dictGet_dictInsert_ne v.prices asset a price ha
  · exact dictGet_dictInsert_self v.price_volatility asset [(now, price)]
  · intro a ha
    exact dictGet_dictInsert_ne v.price_volatility asset a [(now, price)] ha

/-! ## C8 — `get_price_volatility` -/

/-- Population variance as the claim states it: squared deviations from
the mean divided by the count `n` (not `n − 1`). -/
def popVar (ps : List ℚ) : ℚ :=
  (ps.map (fun p => (p - ps.sum / (ps.length : ℚ)) ^ 2)).sum / (ps.length : ℚ)

/-- The population variance is nonnegative. -/
theorem popVar_nonneg (ps : List ℚ) : 0 ≤ popVar ps := by
  unfold popVar
  apply div_nonneg
  · apply List.sum_nonneg
    intro x hx
    rcases List.mem_map.mp hx with ⟨p, _, hp⟩
    rw [← hp]
    positivity
  · positivity

/-- C8: `getPriceVolatility(asset, now)` filters the asset's price
history to observations with timestamp ≥ now − window, returns 0 when
fewer than 2 observations remain, and otherwise returns the population
standard deviation of the filtered prices: a nonnegative real whose
square is the population variance (squared deviations divided by the
count `n`, not `n − 1`). -/
theorem c8_price_volatility (v : Vault) (asset : String) (now : ℚ)
    (hist : List (ℚ × ℚ)) (hh : dictGet v.price_volatility asset = some hist) :
    (((hist.filter (fun e => now - v.window ≤ e.1)).map Prod.snd).length < 2 →
      get_price_volatility v asset now = .ok 0) ∧
    (2 ≤ ((hist.filter (fun e => now - v.window ≤ e.1)).map Prod.snd).length →
      get_price_volatility v asset now =
        .ok (Real.sqrt ((popVar ((hist.filter (fun e => now - v.window ≤ e.1)).map
          Prod.snd) : ℚ) : ℝ)) ∧
      0 ≤ Real.sqrt ((popVar ((hist.filter (fun e => now - v.window ≤ e.1)).map
          Prod.snd) : ℚ) : ℝ) ∧
      (Real.sqrt ((popVar ((hist.filter (fun e => now - v.window ≤ e.1)).map
          Prod.snd) : ℚ) : ℝ)) ^ 2 =
        ((popVar ((hist.filter (fun e => now - v.window ≤ e.1)).map Prod.snd) : ℚ) : ℝ)) := by
  have hps : relevantLoop hist (now - v.window) [] =
      (hist.filter (fun e => now - v.window ≤ e.1)).map Prod.snd := by
    rw [relevantLoop_eq]
    exact List.nil_append _
  constructor
  · intro hlt
    simp only [get_price_volatility, hh, hps]
    rw [if_pos hlt]
  · intro hge
    have hnlt : ¬ (((hist.filter (fun e => now - v.window ≤ e.1)).map Prod.snd).length < 2) :=
      not_lt.mpr hge
    have hvareq :
        pySum (((hist.filter (fun e => now - v.window ≤ e.1)).map Prod.snd).map
          (fun p => (p - pySum ((hist.filter (fun e => now - v.window ≤ e.1)).map Prod.snd) /
            ((((hist.filter (fun e => now - v.window ≤ e.1)).map Prod.snd)).length : ℚ)) ^ 2)) /
          ((((hist.filter (fun e => now - v.window ≤ e.1)).map Prod.snd)).length : ℚ) =
        popVar ((hist.filter (fun e => now - v.window ≤ e.1)).map Prod.snd) := by
      unfold popVar
      rw [pySum_eq_sum, pySum_eq_sum]
    refine ⟨?_, Real.sqrt_nonneg _, ?_⟩
    · simp only [get_price_volatility, hh, hps]
      rw [if_neg hnlt, hvareq]
    · exact Real.sq_sqrt (by exact_mod_cast popVar_nonneg _)

/-- A vault whose "AAA" price history holds two in-window observations
(prices 1 and 3). -/
def vaultC8 : Vault :=
  { baseVault with price_volatility := [("AAA", [(0, 1), (0, 3)])] }

/-- C8 witness: two observations with prices 1 and 3 give population
variance 1 and hence volatility `sqrt 1`. -/
theorem c8_price_volatility_witness :
    get_price_volatility vaultC8 "AAA" 5 = .ok (Real.sqrt 1) := by
  have hh : dictGet vaultC8.price_volatility "AAA" = some [(0, 1), (0, 3)] := by
    simp [vaultC8, baseVault, dictGet]
  have hlen : 2 ≤ ((([((0 : ℚ), (1 : ℚ)), (0, 3)]).filter
      (fun e => 5 - vaultC8.window ≤ e.1)).map Prod.snd).length := by
    norm_num [vaultC8, baseVault, List.filter_cons, decide_eq_true_eq]
  have h := (c8_price_volatility vaultC8 "AAA" 5 [(0, 1), (0, 3)] hh).2 hlen
  rw [h.1]
  congr 1
  have : popVar ((([((0 : ℚ), (1 : ℚ)), (0, 3)]).filter
      (fun e => 5 - vaultC8.window ≤ e.1)).map Prod.snd) = 1 := by
    norm_num [popVar, vaultC8, baseVault, List.filter_cons, decide_eq_true_eq]
  rw [this]
  norm_num

/-! ## C2 — `rebalance` -/

/-- On a segment whose entries are the dict's own bindings and are all
priced, the `get_assets_value` loop returns the accumulated sum of
`price × holdings`. -/
theorem assetsValueLoop_ok (v : Vault) :
    ∀ (l : List (String × ℚ)) (acc : ℚ),
      (∀ e ∈ l, dictGet v.assets e.1 = some e.2) →
      (∀ e ∈ l, (dictGet v.prices e.1).isSome) →
      assetsValueLoop v l acc =
        .ok (acc + (l.map (fun e => dictGetD v.prices e.1 0 * e.2)).sum) := by
  intro l
  induction l with
  | nil => intro acc _ _; simp [assetsValueLoop]
  | cons hd tl ih =>
    intro acc h1 h2
    have hhd := h1 hd (List.mem_cons_self _ _)
    rcases Option.isSome_iff_exists.mp (h2 hd (List.mem_cons_self _ _)) with ⟨p, hp⟩
    have hval : get_asset_value v hd.1 = .ok (p * hd.2) := by
      unfold get_asset_value
      rw [hhd, hp]
    have hpd : dictGetD v.prices hd.1 0 = p := by simp [dictGetD, hp]
    simp only [assetsValueLoop, hval]
    rw [ih (acc + p * hd.2) (fun e he => h1 e (List.mem_cons_of_mem _ he))
      (fun e he => h2 e (List.mem_cons_of_mem _ he))]
    congr 1
    rw [List.map_cons, List.sum_cons, hpd]
    ring

/-- With unique keys and every registered asset priced,
`get_assets_value` is the sum of `price × holdings` over the registry. -/
theorem get_assets_value_nodup (v : Vault)
    (hnd : (v.assets.map Prod.fst).Nodup)
    (hp : ∀ e ∈ v.assets, (dictGet v.prices e.1).isSome) :
    get_assets_value v =
      .ok ((v.assets.map (fun e => dictGetD v.prices e.1 0 * e.2)).sum) := by
  unfold get_assets_value
  rw [assetsValueLoop_ok v v.assets 0 (nodup_dictGet v.assets hnd) hp, zero_add]

/-- The rebalance loop over the keys of a uniquely-keyed holdings dict,
with every key priced nonzero, increments each holding by
`(excess / n) / price` pointwise and never raises. -/
theorem rebalanceLoop_eq_map (prices : List (String × ℚ)) (excess : ℚ) (n : ℕ) :
    ∀ (l pre : List (String × ℚ)),
      (((pre ++ l).map Prod.fst).Nodup) →
      (∀ e ∈ l, dictGetD prices e.1 0 ≠ 0) →
      rebalanceLoop prices excess n (l.map Prod.fst) (pre ++ l) =
        .ok (pre ++ l.map (fun e =>
          (e.1, e.2 + excess / (n : ℚ) / dictGetD prices e.1 0))) := by
  intro l
  induction l with
  | nil => intro pre _ _; simp [rebalanceLoop]
  | cons hd tl ih =>
    intro pre hnd hp
    have hpk : dictGetD prices hd.1 0 ≠ 0 := hp hd (List.mem_cons_self _ _)
    have hnd2 := hnd
    rw [List.map_append, List.nodup_append] at hnd2
    have hnotpre : hd.1 ∉ pre.map Prod.fst := fun hmem =>
      hnd2.2.2 hmem (by simp)
    have hget : dictGetD (pre ++ hd :: tl) hd.1 0 = hd.2 := by
      unfold dictGetD
      rw [dictGet_append_notMem pre (hd :: tl) hd.1 hnotpre]
      simp [dictGet]
    have hins : dictInsert (pre ++ hd :: tl) hd.1
        (hd.2 + excess / (n : ℚ) / dictGetD prices hd.1 0) =
        pre ++ (hd.1, hd.2 + excess / (n : ℚ) / dictGetD prices hd.1 0) :: tl :=
      dictInsert_append_notMem pre tl hd.1 hd.2 _ hnotpre
    have hkeys : ((pre ++ [(hd.1, hd.2 + excess / (n : ℚ) / dictGetD prices hd.1 0)]) ++
        tl).map Prod.fst = ((pre ++ hd :: tl).map Prod.fst) := by
      simp
    have hnd' : (((pre ++ [(hd.1, hd.2 + excess / (n : ℚ) / dictGetD prices hd.1 0)]) ++
        tl).map Prod.fst).Nodup := by
      rw [hkeys]
      exact hnd
    have hstep := ih (pre ++ [(hd.1, hd.2 + excess / (n : ℚ) / dictGetD prices hd.1 0)])
      hnd' (fun e he => hp e (List.mem_cons_of_mem _ he))
    simp only [List.map_cons, rebalanceLoop]
    rw [if_neg hpk, hget, hins]
    have happ : pre ++ (hd.1, hd.2 + excess / (n : ℚ) / dictGetD prices hd.1 0) :: tl =
        (pre ++ [(hd.1, hd.2 + excess / (n : ℚ) / dictGetD prices hd.1 0)]) ++ tl := by
      simp
    rw [happ, hstep]
    simp

/-- C2 (amended): `rebalance()` leaves the state unchanged whenever
`cashRatio ≤ optimalCashThreshold`; and for every state with
`cashRatio > optimalCashThreshold`, **at least one registered asset**,
unique registry keys, and all registered asset prices > 0, it increases
each registered asset's holdings by `(excessCash / assetCount) / price`
with `excessCash = cash − optimalCashThreshold·totalValue`, decreases
cash by exactly `excessCash` (once, after the loop), and conserves
`totalValue`.  (With no registered assets the loop body never runs, yet
cash is still decremented by the full excess, so `totalValue` is *not*
conserved — hence the added nonemptiness hypothesis.) -/
theorem c2_rebalance (v : Vault) (tv r : ℚ)
    (hnd : (v.assets.map Prod.fst).Nodup)
    (htv : get_total_value v = .ok tv)
    (hr : get_current_cash_threshold v = .ok r) :
    (r ≤ v.optimal_cash_threshold → rebalance v = .ok ((), v)) ∧
    (v.optimal_cash_threshold < r → v.assets ≠ [] →
      (∀ e ∈ v.assets, 0 < dictGetD v.prices e.1 0) →
      rebalance v = .ok ((), { v with
        cash := v.cash - (v.cash - v.optimal_cash_threshold * tv)
        assets := v.assets.map (fun e => (e.1, e.2 +
          ((v.cash - v.optimal_cash_threshold * tv) / (v.assets.length : ℚ)) /
            dictGetD v.prices e.1 0)) }) ∧
      get_total_value { v with
        cash := v.cash - (v.cash - v.optimal_cash_threshold * tv)
        assets := v.assets.map (fun e => (e.1, e.2 +
          ((v.cash - v.optimal_cash_threshold * tv) / (v.assets.length : ℚ)) /
            dictGetD v.prices e.1 0)) } = .ok tv) := by
  constructor
  · intro hle
    unfold rebalance
    rw [hr]
    simp only [if_pos hle]
  · intro hgt hne hpos
    have hnle : ¬ (r ≤ v.optimal_cash_threshold) := not_le.mpr hgt
    have hpne : ∀ e ∈ v.assets, dictGetD v.prices e.1 0 ≠ 0 :=
      fun e he => ne_of_gt (hpos e he)
    have hloop := rebalanceLoop_eq_map v.prices
      (v.cash - v.optimal_cash_threshold * tv) v.assets.length v.assets [] (by simpa using hnd)
      hpne
    rw [List.nil_append] at hloop
    have hreb : rebalance v = .ok ((), { v with
        cash := v.cash - (v.cash - v.optimal_cash_threshold * tv)
        assets := v.assets.map (fun e => (e.1, e.2 +
          ((v.cash - v.optimal_cash_threshold * tv) / (v.assets.length : ℚ)) /
            dictGetD v.prices e.1 0)) }) := by
      unfold rebalance
      rw [hr]
      simp only [if_neg hnle]
      rw [htv]
      simp only [hloop, List.nil_append]
    refine ⟨hreb, ?_⟩
    -- conservation of total value
    have hlen : ((v.assets.length : ℚ)) ≠ 0 := by
      have : v.assets.length ≠ 0 := fun h0 => hne (List.length_eq_zero.mp h0)
      exact_mod_cast this
    have hsome : ∀ e ∈ v.assets, (dictGet v.prices e.1).isSome := by
      intro e he
      cases hg : dictGet v.prices e.1 with
      | none =>
        exfalso
        have := hpos e he
        rw [dictGetD, hg] at this
        simp at this
      | some p => simp
    have hA := get_assets_value_nodup v hnd hsome
    have htv2 : get_total_value v =
        .ok ((v.assets.map (fun e => dictGetD v.prices e.1 0 * e.2)).sum + v.cash) := by
      unfold get_total_value
      rw [hA]
    have htveq : (v.assets.map (fun e => dictGetD v.prices e.1 0 * e.2)).sum + v.cash = tv := by
      have := htv2.symm.trans htv
      exact Except.ok.inj this
    set vNew : Vault := { v with
      cash := v.cash - (v.cash - v.optimal_cash_threshold * tv)
      assets := v.assets.map (fun e => (e.1, e.2 +
        ((v.cash - v.optimal_cash_threshold * tv) / (v.assets.length : ℚ)) /
          dictGetD v.prices e.1 0)) } with hvNew
    have hndN : (vNew.assets.map Prod.fst).Nodup := by
      rw [hvNew]
      simpa [List.map_map, Function.comp] using hnd
    have hsomeN : ∀ e ∈ vNew.assets, (dictGet vNew.prices e.1).isSome := by
      rw [hvNew]
      intro e he
      rcases List.mem_map.mp he with ⟨a, ha, hae⟩
      rw [← hae]
      exact hsome a ha
    have hAN := get_assets_value_nodup vNew hndN hsomeN
    have hsumN : (vNew.assets.map (fun e => dictGetD vNew.prices e.1 0 * e.2)).sum =
        (v.assets.map (fun e => dictGetD v.prices e.1 0 * e.2)).sum +
          (v.cash - v.optimal_cash_threshold * tv) := by
      have hcomp : vNew.assets.map (fun e => dictGetD vNew.prices e.1 0 * e.2) =
          v.assets.map (fun e => dictGetD v.prices e.1 0 * e.2 +
            (v.cash - v.optimal_cash_threshold * tv) / (v.assets.length : ℚ)) := by
        rw [hvNew]
        rw [List.map_map]
        apply List.map_congr_left
        intro a ha
        have hane : dictGetD v.prices a.1 0 ≠ 0 := hpne a ha
        simp only [Function.comp]
        rw [mul_add, mul_div_cancel₀ _ hane]
      rw [hcomp, sumMapAdd, sumMapConst, mul_div_cancel₀ _ hlen]
    have hTN : get_total_value vNew =
        .ok ((vNew.assets.map (fun e => dictGetD vNew.prices e.1 0 * e.2)).sum +
          vNew.cash) := by
      unfold get_total_value
      rw [hAN]
    have hcashN : vNew.cash = v.cash - (v.cash - v.optimal_cash_threshold * tv) := by
      rw [hvNew]
    rw [hTN, hsumN, hcashN, ← htveq]
    congr 1
    ring

/-- A vault with cash but no registered assets. -/
def vaultC2 : Vault := { baseVault with cash := 100, token_supply := 100 }

/-- C2 counterexample: with no registered assets the claim's hypotheses
(cash ratio above optimal, all registered prices positive — vacuously)
hold, the loop body never runs, yet cash is still decremented by the full
excess after the loop: total value falls from 100 to 20, so `rebalance`
does **not** conserve `totalValue` as claimed. -/
theorem c2_rebalance_counterexample :
    get_current_cash_threshold vaultC2 = .ok 1 ∧
    vaultC2.optimal_cash_threshold < 1 ∧
    (∀ e ∈ vaultC2.assets, 0 < dictGetD vaultC2.prices e.1 0) ∧
    get_total_value vaultC2 = .ok 100 ∧
    rebalance vaultC2 = .ok ((), { vaultC2 with cash := 20 }) ∧
    get_total_value { vaultC2 with cash := 20 } = .ok 20 := by
  have h1 : get_current_cash_threshold vaultC2 = .ok 1 := by
    norm_num [get_current_cash_threshold, get_total_value, get_assets_value,
      assetsValueLoop, vaultC2, baseVault]
  refine ⟨h1, by norm_num [vaultC2, baseVault], by simp [vaultC2, baseVault], ?_, ?_, ?_⟩
  · norm_num [get_total_value, get_assets_value, assetsValueLoop, vaultC2, baseVault]
  · unfold rebalance
    rw [h1]
    norm_num [get_total_value, get_assets_value, assetsValueLoop, rebalanceLoop,
      vaultC2, baseVault]
  · norm_num [get_total_value, get_assets_value, assetsValueLoop, vaultC2, baseVault]

/-- A vault with 100 cash and a single registered asset "AAA" priced 2
with zero holdings. -/
def vaultC2W : Vault :=
  { baseVault with
    cash := 100
    token_supply := 100
    assets := [("AAA", 0)]
    asset_liquidity_value := [("AAA", 1)]
    prices := [("AAA", 2)]
    price_volatility := [("AAA", [(0, 2)])]
    thresholds := [("AAA", 1/2)] }

/-- C2 witness: the triggered branch of the amended theorem at a concrete
state: excess = 100 − 0.2·100 = 80, one asset, so it buys 80/2 = 40 units,
cash drops to 20 and total value stays 100. -/
theorem c2_rebalance_witness :
    rebalance vaultC2W = .ok ((), { vaultC2W with cash := 20, assets := [("AAA", 40)] }) ∧
    get_total_value { vaultC2W with cash := 20, assets := [("AAA", 40)] } = .ok 100 := by
  have htv : get_total_value vaultC2W = .ok 100 := by
    norm_num [get_total_value, get_assets_value, assetsValueLoop, get_asset_value,
      dictGet, vaultC2W, baseVault]
  have hr : get_current_cash_threshold vaultC2W = .ok 1 := by
    rw [cash_threshold_of_total vaultC2W 100 htv]
    norm_num [vaultC2W, baseVault]
  have h := (c2_rebalance vaultC2W 100 1 (by simp [vaultC2W, baseVault]) htv hr).2
    (by norm_num [vaultC2W, baseVault]) (by simp [vaultC2W, baseVault])
    (by simp [vaultC2W, baseVault, dictGetD, dictGet])
  have hrec : ({ vaultC2W with
      cash := vaultC2W.cash - (vaultC2W.cash - vaultC2W.optimal_cash_threshold * 100)
      assets := vaultC2W.assets.map (fun e => (e.1, e.2 +
        ((vaultC2W.cash - vaultC2W.optimal_cash_threshold * 100) /
          (vaultC2W.assets.length : ℚ)) / dictGetD vaultC2W.prices e.1 0)) } : Vault) =
      { vaultC2W with cash := 20, assets := [("AAA", 40)] } := by
    norm_num [vaultC2W, baseVault, dictGetD, dictGet]
  rw [hrec] at h
  exact ⟨h.1, h.2⟩

/-! ## C3 — `liquidate` never decreases cash / never increases holdings -/

/-- Inserting a nonnegative value keeps all entries nonnegative. -/
theorem dictInsert_entries_nonneg {assets : List (String × ℚ)} {k : String} {w : ℚ}
    (hnn : ∀ e ∈ assets, 0 ≤ e.2) (hw : 0 ≤ w) :
    ∀ e ∈ dictInsert assets k w, 0 ≤ e.2 := by
  intro e he
  rcases mem_dictInsert he with h1 | h2
  · exact hnn e h1
  · rw [h2]
    exact hw

/-- Inserting a value no larger than the current one can only lower
lookups. -/
theorem dictGetD_dictInsert_le {assets : List (String × ℚ)} {k : String} {w : ℚ}
    (hw : w ≤ dictGetD assets k 0) :
    ∀ j, dictGetD (dictInsert assets k w) j 0 ≤ dictGetD assets j 0 := by
  intro j
  by_cases hj : j = k
  · subst hj
    unfold dictGetD
    rw [dictGet_dictInsert_self]
    exact hw
  · unfold dictGetD
    rw [dictGet_dictInsert_ne assets k j w hj]

/-- The liquidation loop never decreases cash, never increases any
holding, and keeps all holdings nonnegative — provided the target
`required` does not exceed `desired` (which holds when the pre-call cash
is nonnegative) and no price is negative.  The conclusion covers both
the normal and the exceptional exit. -/
theorem liquidateLoop_spec (prices : List (String × ℚ)) (desired required : ℚ)
    (hrd : required ≤ desired) (hp : ∀ e ∈ prices, 0 ≤ e.2) :
    ∀ (ks : List String) (cash : ℚ) (assets : List (String × ℚ)),
      (∀ e ∈ assets, 0 ≤ e.2) →
      cash ≤ (resPair (liquidateLoop prices desired required ks cash assets)).1 ∧
      (∀ e ∈ (resPair (liquidateLoop prices desired required ks cash assets)).2, 0 ≤ e.2) ∧
      (∀ j, dictGetD (resPair (liquidateLoop prices desired required ks cash assets)).2 j 0 ≤
        dictGetD assets j 0) := by
  intro ks
  induction ks with
  | nil =>
    intro cash assets hnn
    simp only [liquidateLoop, resPair]
    exact ⟨le_refl _, hnn, fun j => le_refl _⟩
  | cons k ks ih =>
    intro cash assets hnn
    simp only [liquidateLoop]
    by_cases hbreak : required ≤ cash
    · rw [if_pos hbreak]
      simp only [resPair]
      exact ⟨le_refl _, hnn, fun j => le_refl _⟩
    · rw [if_neg hbreak]
      by_cases hh : dictGetD assets k 0 = 0
      · rw [if_pos hh]
        exact ih cash assets hnn
      · rw [if_neg hh]
        by_cases hp0 : dictGetD prices k 0 = 0
        · rw [if_pos hp0]
          simp only [resPair]
          exact ⟨le_refl _, hnn, fun j => le_refl _⟩
        · rw [if_neg hp0]
          have hpnn : 0 ≤ dictGetD prices k 0 := dictGetD_nonneg hp k
          have hppos : 0 < dictGetD prices k 0 := lt_of_le_of_ne hpnn (Ne.symm hp0)
          have hann : 0 ≤ dictGetD assets k 0 := dictGetD_nonneg hnn k
          have hsr : 0 < desired - cash := by
            have hcr : cash < required := not_le.mp hbreak
            linarith
          by_cases hfull : dictGetD assets k 0 * dictGetD prices k 0 + cash < desired
          · rw [if_pos hfull]
            have hmul : 0 ≤ dictGetD assets k 0 * dictGetD prices k 0 :=
              mul_nonneg hann hpnn
            have hnn' : ∀ e ∈ dictInsert assets k 0, 0 ≤ e.2 :=
              dictInsert_entries_nonneg hnn (le_refl 0)
            have hstep := ih (cash + dictGetD assets k 0 * dictGetD prices k 0)
              (dictInsert assets k 0) hnn'
            refine ⟨by linarith [hstep.1], hstep.2.1, fun j => ?_⟩
            exact le_trans (hstep.2.2 j) (dictGetD_dictInsert_le hann j)
          · rw [if_neg hfull]
            have hqnn : 0 ≤ (desired - cash) / dictGetD prices k 0 :=
              div_nonneg (le_of_lt hsr) hpnn
            have hql : (desired - cash) / dictGetD prices k 0 ≤ dictGetD assets k 0 := by
              rw [div_le_iff₀ hppos]
              linarith [not_lt.mp hfull]
            have hmul : 0 ≤ ((desired - cash) / dictGetD prices k 0) * dictGetD prices k 0 :=
              mul_nonneg hqnn hpnn
            have hwle : dictGetD assets k 0 - (desired - cash) / dictGetD prices k 0 ≤
                dictGetD assets k 0 := by linarith
            have hwnn : 0 ≤ dictGetD assets k 0 - (desired - cash) / dictGetD prices k 0 := by
              linarith
            have hnn' := dictInsert_entries_nonneg (k := k) hnn hwnn
            have hstep := ih (cash + ((desired - cash) / dictGetD prices k 0) *
              dictGetD prices k 0)
              (dictInsert assets k
                (dictGetD assets k 0 - (desired - cash) / dictGetD prices k 0)) hnn'
            refine ⟨by linarith [hstep.1], hstep.2.1, fun j => ?_⟩
            exact le_trans (hstep.2.2 j) (dictGetD_dictInsert_le hwle j)

/-- Postcondition of `liquidate` on states with nonnegative cash,
holdings and prices: cash does not decrease, holdings do not increase
and stay nonnegative, and the price dict is untouched — on both the
normal and the exceptional exit. -/
theorem liquidate_post (v : Vault)
    (hc : 0 ≤ v.cash)
    (hh : ∀ e ∈ v.assets, 0 ≤ e.2)
    (hp : ∀ e ∈ v.prices, 0 ≤ e.2) :
    v.cash ≤ (resVault (liquidate v)).cash ∧
    (∀ e ∈ (resVault (liquidate v)).assets, 0 ≤ e.2) ∧
    (∀ j, dictGetD (resVault (liquidate v)).assets j 0 ≤ dictGetD v.assets j 0) ∧
    (resVault (liquidate v)).prices = v.prices := by
  rcases hliq : is_liquidable v with e | b
  · have hfin : liquidate v = .error (e, v) := by
      unfold liquidate
      rw [hliq]
    rw [hfin]
    simp only [resVault]
    exact ⟨le_refl _, hh, fun j => le_refl _, trivial⟩
  · cases b with
    | false =>
      have hfin : liquidate v = .ok ((), v) := by
        unfold liquidate
        rw [hliq]
      rw [hfin]
      simp only [resVault]
      exact ⟨le_refl _, hh, fun j => le_refl _, trivial⟩
    | true =>
      rcases htv : get_total_value v with e2 | tv
      · have hfin : liquidate v = .error (e2, v) := by
          simp only [liquidate, hliq, htv]
        rw [hfin]
        simp only [resVault]
        exact ⟨le_refl _, hh, fun j => le_refl _, trivial⟩
      · have hrd : v.optimal_cash_threshold * tv - v.cash ≤
            v.optimal_cash_threshold * tv := by linarith
        have hloop := liquidateLoop_spec v.prices (v.optimal_cash_threshold * tv)
          (v.optimal_cash_threshold * tv - v.cash) hrd hp
          ((sortByVal v.asset_liquidity_value).map Prod.fst) v.cash v.assets hh
        rcases hres : liquidateLoop v.prices (v.optimal_cash_threshold * tv)
            (v.optimal_cash_threshold * tv - v.cash)
            ((sortByVal v.asset_liquidity_value).map Prod.fst) v.cash v.assets with
          ⟨e1, c1, a1⟩ | ⟨c1, a1⟩
        · have hfin : liquidate v = .error (e1, { v with cash := c1, assets := a1 }) := by
            simp only [liquidate, hliq, htv, hres]
          rw [hfin]
          rw [hres] at hloop
          simp only [resPair] at hloop
          simp only [resVault]
          exact ⟨hloop.1, hloop.2.1, hloop.2.2, trivial⟩
        · rw [hres] at hloop
          simp only [resPair] at hloop
          rcases htv2 : get_total_value { v with cash := c1, assets := a1 } with e2 | tv2
          · have hfin : liquidate v =
                .error (e2, { v with cash := c1, assets := a1 }) := by
              simp only [liquidate, hliq, htv, hres, htv2]
            rw [hfin]
            simp only [resVault]
            exact ⟨hloop.1, hloop.2.1, hloop.2.2, trivial⟩
          · have hfin : liquidate v = .ok ((), { v with cash := c1, assets := a1 }) := by
              simp only [liquidate, hliq, htv, hres, htv2]
            rw [hfin]
            simp only [resVault]
            exact ⟨hloop.1, hloop.2.1, hloop.2.2, trivial⟩

/-- C3 (amended): provided no registered price is negative (the source
never validates prices, so a negative price — reachable through
`set_asset_price` — breaks the property, see the counterexample), for
every vault state with cash ≥ 0 and all holdings ≥ 0,
`liquidateProtocol()` never decreases cash below its starting value and
never increases any asset's holdings, which remain ≥ 0; this holds on
both the normal and the exceptional exit. -/
theorem c3_liquidate_monotone (v : Vault)
    (hc : 0 ≤ v.cash)
    (hh : ∀ e ∈ v.assets, 0 ≤ e.2)
    (hp : ∀ e ∈ v.prices, 0 ≤ e.2) :
    v.cash ≤ (resVault (liquidate v)).cash ∧
    (∀ e ∈ (resVault (liquidate v)).assets, 0 ≤ e.2) ∧
    (∀ j, dictGetD (resVault (liquidate v)).assets j 0 ≤ dictGetD v.assets j 0) := by
  have hpost := liquidate_post v hc hh hp
  exact ⟨hpost.1, hpost.2.1, hpost.2.2.1⟩

/-- A vault holding one asset with a **negative** price (reachable via
the unvalidated `set_asset_price`), positioned so that protocol
liquidation fires. -/
def vaultC3 : Vault :=
  { baseVault with
    cash := 10
    optimal_cash_threshold := 3
    liquidation_trigger_threshold := 2
    token_supply := 10
    assets := [("BBB", 1)]
    asset_liquidity_value := [("BBB", 1)]
    prices := [("BBB", -2)]
    price_volatility := [("BBB", [(0, -2)])]
    thresholds := [("BBB", 1/2)] }

/-- C3 counterexample: starting from cash = 10 ≥ 0 and holdings ≥ 0,
`liquidate` fully liquidates the negatively-priced asset, **decreasing**
cash from 10 to 8 — so the claim "cash after the call is ≥ the cash
before it" is false for an arbitrary vault state; it needs nonnegative
prices. -/
theorem c3_liquidate_counterexample :
    vaultC3.cash = 10 ∧ (∀ e ∈ vaultC3.assets, 0 ≤ e.2) ∧
    liquidate vaultC3 = .ok ((), { vaultC3 with cash := 8, assets := [("BBB", 0)] }) ∧
    ({ vaultC3 with cash := 8, assets := [("BBB", 0)] } : Vault).cash < vaultC3.cash := by
  have hassets : vaultC3.assets = [("BBB", 1)] := rfl
  have hprices : vaultC3.prices = [("BBB", -2)] := rfl
  have halv : vaultC3.asset_liquidity_value = [("BBB", 1)] := rfl
  have hcash : vaultC3.cash = 10 := rfl
  have hopt : vaultC3.optimal_cash_threshold = 3 := rfl
  have htrig : vaultC3.liquidation_trigger_threshold = 2 := rfl
  have hav : get_asset_value vaultC3 "BBB" = .ok (-2) := by
    norm_num [get_asset_value, dictGet, hassets, hprices]
  have htv : get_total_value vaultC3 = .ok 8 := by
    norm_num [get_total_value, get_assets_value, assetsValueLoop, hassets, hcash, hav]
  have hr : get_current_cash_threshold vaultC3 = .ok (5/4) := by
    rw [cash_threshold_of_total vaultC3 8 htv]
    norm_num [hcash]
  have hliq : is_liquidable vaultC3 = .ok true := by
    unfold is_liquidable
    rw [hr]
    norm_num [htrig]
  have hsort : (sortByVal vaultC3.asset_liquidity_value).map Prod.fst = ["BBB"] := by
    norm_num [sortByVal, insertSorted, halv]
  have hloop : liquidateLoop vaultC3.prices (vaultC3.optimal_cash_threshold * 8)
      (vaultC3.optimal_cash_threshold * 8 - vaultC3.cash) ["BBB"] vaultC3.cash
      vaultC3.assets = .ok (8, [("BBB", 0)]) := by
    norm_num [liquidateLoop, dictGetD, dictGet, dictInsert, hassets, hprices, hopt, hcash]
  have hfin : liquidate vaultC3 =
      .ok ((), { vaultC3 with cash := 8, assets := [("BBB", 0)] }) := by
    simp only [liquidate, hliq, htv, hsort, hloop]
    norm_num [get_total_value, get_assets_value, assetsValueLoop, get_asset_value,
      dictGet, hprices]
  refine ⟨rfl, ?_, hfin, ?_⟩
  · norm_num [hassets]
  · norm_num [hcash]

/-- A vault with one positively-priced asset in a liquidable position. -/
def vaultC3W : Vault :=
  { baseVault with
    cash := 0
    token_supply := 10
    assets := [("BBB", 10)]
    asset_liquidity_value := [("BBB", 1)]
    prices := [("BBB", 1)]
    price_volatility := [("BBB", [(0, 1)])]
    thresholds := [("BBB", 1/2)] }

/-- C3 witness: the amended theorem applied to a concrete liquidable
state with a positive price. -/
theorem c3_liquidate_monotone_witness :
    vaultC3W.cash ≤ (resVault (liquidate vaultC3W)).cash :=
  (c3_liquidate_monotone vaultC3W (by norm_num [vaultC3W, baseVault])
    (by norm_num [vaultC3W, baseVault]) (by norm_num [vaultC3W, baseVault])).1

/-! ## C7 — the data-model invariant -/

/-- The data-model invariant of §3: holdings ≥ 0 and every price that
has been set is > 0. -/
def VaultInv (v : Vault) : Prop :=
  (∀ e ∈ v.assets, 0 ≤ e.2) ∧ (∀ e ∈ v.prices, 0 < e.2)

/-- Under the invariant a single asset's value is nonnegative. -/
theorem get_asset_value_nonneg (v : Vault) (hInv : VaultInv v) (a : String) (x : ℚ)
    (h : get_asset_value v a = .ok x) : 0 ≤ x := by
  unfold get_asset_value at h
  cases hga : dictGet v.assets a with
  | none => rw [hga] at h; simp at h
  | some hold =>
    rw [hga] at h
    cases hgp : dictGet v.prices a with
    | none => rw [hgp] at h; simp at h
    | some p =>
      rw [hgp] at h
      simp only [Except.ok.injEq] at h
      rw [← h]
      exact mul_nonneg (le_of_lt (hInv.2 _ (dictGet_mem hgp))) (hInv.1 _ (dictGet_mem hga))

/-- Under the invariant the assets-value accumulator never decreases. -/
theorem assetsValueLoop_ge (v : Vault) (hInv : VaultInv v) :
    ∀ (l : List (String × ℚ)) (acc t : ℚ),
      assetsValueLoop v l acc = .ok t → acc ≤ t := by
  intro l
  induction l with
  | nil =>
    intro acc t h
    simp only [assetsValueLoop, Except.ok.injEq] at h
    exact le_of_eq h
  | cons hd tl ih =>
    intro acc t h
    simp only [assetsValueLoop] at h
    cases hv : get_asset_value v hd.1 with
    | error err => rw [hv] at h; simp at h
    | ok x =>
      rw [hv] at h
      simp only [] at h
      have hx : 0 ≤ x := get_asset_value_nonneg v hInv hd.1 x hv
      have := ih (acc + x) t h
      linarith

/-- With nonnegative excess and positive prices, the rebalance loop
keeps all holdings nonnegative on both exits. -/
theorem rebalanceLoop_entries_nonneg (prices : List (String × ℚ)) (excess : ℚ) (n : ℕ)
    (hx : 0 ≤ excess) (hp : ∀ e ∈ prices, 0 < e.2) :
    ∀ (ks : List String) (assets : List (String × ℚ)),
      (∀ e ∈ assets, 0 ≤ e.2) →
      ∀ e ∈ resAssets (rebalanceLoop prices excess n ks assets), 0 ≤ e.2 := by
  intro ks
  induction ks with
  | nil =>
    intro assets hnn
    simp only [rebalanceLoop, resAssets]
    exact hnn
  | cons k ks ih =>
    intro assets hnn
    simp only [rebalanceLoop]
    by_cases hp0 : dictGetD prices k 0 = 0
    · rw [if_pos hp0]
      simp only [resAssets]
      exact hnn
    · rw [if_neg hp0]
      apply ih
      apply dictInsert_entries_nonneg hnn
      have hpk : 0 ≤ dictGetD prices k 0 :=
        dictGetD_nonneg (fun e he => le_of_lt (hp e he)) k
      have hak : 0 ≤ dictGetD assets k 0 := dictGetD_nonneg hnn k
      have hq : 0 ≤ excess / (n : ℚ) / dictGetD prices k 0 :=
        div_nonneg (div_nonneg hx (Nat.cast_nonneg n)) hpk
      linarith

/-- Operation `rebalance` preserves the data-model invariant on states with
nonnegative cash, on both the normal and the exceptional exit. -/
theorem rebalance_inv (v : Vault) (hc : 0 ≤ v.cash) (hInv : VaultInv v) :
    VaultInv (resVault (rebalance v)) := by
  rcases hr : get_current_cash_threshold v with e | r
  · have hfin : rebalance v = .error (e, v) := by
      unfold rebalance
      rw [hr]
    rw [hfin]
    exact hInv
  · by_cases hle : r ≤ v.optimal_cash_threshold
    · have hfin : rebalance v = .ok ((), v) := by
        unfold rebalance
        rw [hr]
        simp only [if_pos hle]
      rw [hfin]
      exact hInv
    · rcases htv : get_total_value v with e2 | tv
      · exfalso
        unfold get_current_cash_threshold at hr
        rw [htv] at hr
        simp at hr
      · have hA : ∃ A, get_assets_value v = .ok A ∧ 0 ≤ A := by
          unfold get_total_value at htv
          cases hg : get_assets_value v with
          | error e3 => rw [hg] at htv; simp at htv
          | ok A =>
            refine ⟨A, rfl, ?_⟩
            exact assetsValueLoop_ge v hInv v.assets 0 A hg
        rcases hA with ⟨A, hgA, hAnn⟩
        have htvval : tv = A + v.cash := by
          unfold get_total_value at htv
          rw [hgA] at htv
          simp only [Except.ok.injEq] at htv
          exact htv.symm
        have htvnn : 0 ≤ tv := by rw [htvval]; linarith
        have hrval : r = if tv = 0 then 0 else v.cash / tv := by
          have hform := cash_threshold_of_total v tv htv
          rw [hr] at hform
          exact Except.ok.inj hform
        have hx : 0 ≤ v.cash - v.optimal_cash_threshold * tv := by
          by_cases h0 : tv = 0
          · rw [h0]
            linarith
          · have htvpos : 0 < tv := lt_of_le_of_ne htvnn (Ne.symm h0)
            have hropt : v.optimal_cash_threshold < r := not_le.mp hle
            rw [hrval, if_neg h0] at hropt
            have := (lt_div_iff₀ htvpos).mp hropt
            linarith
        have hent := rebalanceLoop_entries_nonneg v.prices
          (v.cash - v.optimal_cash_threshold * tv) v.assets.length hx hInv.2
          (v.assets.map Prod.fst) v.assets hInv.1
        rcases hres : rebalanceLoop v.prices (v.cash - v.optimal_cash_threshold * tv)
            v.assets.length (v.assets.map Prod.fst) v.assets with ⟨e3, a3⟩ | a3
        · have hfin : rebalance v = .error (e3, { v with assets := a3 }) := by
            simp only [rebalance, hr, if_neg hle, htv, hres]
          rw [hfin]
          rw [hres] at hent
          simp only [resAssets] at hent
          exact ⟨hent, hInv.2⟩
        · have hfin : rebalance v = .ok ((),
              { v with
                assets := a3
                cash := v.cash - (v.cash - v.optimal_cash_threshold * tv) }) := by
            simp only [rebalance, hr, if_neg hle, htv, hres]
          rw [hfin]
          rw [hres] at hent
          simp only [resAssets] at hent
          exact ⟨hent, hInv.2⟩

/-- Operation `liquidate_asset` never mutates the vault: every control path raises
(either a validation `ValueError` or the `TypeError` at the
`swing_pricing` call), leaving the state behind unchanged. -/
theorem liquidate_asset_state (v : Vault) (asset : String) (amount : ℚ) :
    resVault (liquidate_asset v asset amount) = v := by
  unfold liquidate_asset
  cases dictGet v.assets asset with
  | none => rfl
  | some h =>
    cases dictGet v.prices asset with
    | none => rfl
    | some p =>
      by_cases h1 : h < amount
      · simp [h1, resVault]
      · by_cases h2 : amount * p ≤ v.cash
        · simp [h1, h2, resVault]
        · simp [h1, h2, resVault]

/-- With no price negative, the liquidation loop keeps all holdings
nonnegative on both exits, from **any** cash and any `desired`/`required`
targets: the full-sale branch writes 0, and in the partial-sale branch
the guard `holdings·price + cash ≥ desired` with `price > 0` bounds the
sold quantity `(desired − cash)/price` by the holdings. -/
theorem liquidateLoop_entries_nonneg (prices : List (String × ℚ)) (desired required : ℚ)
    (hp : ∀ e ∈ prices, 0 ≤ e.2) :
    ∀ (ks : List String) (cash : ℚ) (assets : List (String × ℚ)),
      (∀ e ∈ assets, 0 ≤ e.2) →
      ∀ e ∈ (resPair (liquidateLoop prices desired required ks cash assets)).2, 0 ≤ e.2 := by
  intro ks
  induction ks with
  | nil =>
    intro cash assets hnn
    simp only [liquidateLoop, resPair]
    exact hnn
  | cons k ks ih =>
    intro cash assets hnn
    simp only [liquidateLoop]
    by_cases hbreak : required ≤ cash
    · rw [if_pos hbreak]
      simp only [resPair]
      exact hnn
    · rw [if_neg hbreak]
      by_cases hh : dictGetD assets k 0 = 0
      · rw [if_pos hh]
        exact ih cash assets hnn
      · rw [if_neg hh]
        by_cases hp0 : dictGetD prices k 0 = 0
        · rw [if_pos hp0]
          simp only [resPair]
          exact hnn
        · rw [if_neg hp0]
          have hpnn : 0 ≤ dictGetD prices k 0 := dictGetD_nonneg hp k
          have hppos : 0 < dictGetD prices k 0 := lt_of_le_of_ne hpnn (Ne.symm hp0)
          by_cases hfull : dictGetD assets k 0 * dictGetD prices k 0 + cash < desired
          · rw [if_pos hfull]
            exact ih _ _ (dictInsert_entries_nonneg hnn (le_refl 0))
          · rw [if_neg hfull]
            have hql : (desired - cash) / dictGetD prices k 0 ≤ dictGetD assets k 0 := by
              rw [div_le_iff₀ hppos]
              linarith [not_lt.mp hfull]
            exact ih _ _ (dictInsert_entries_nonneg hnn (by linarith))

/-- Operation `liquidate` preserves the data-model invariant from **any**
state satisfying it — no cash hypothesis is needed: it only rescales or
zeroes holdings (nonneg by `liquidateLoop_entries_nonneg`, using the
invariant's positive prices) and never touches the price dict. -/
theorem liquidate_inv (v : Vault) (hInv : VaultInv v) :
    VaultInv (resVault (liquidate v)) := by
  rcases hliq : is_liquidable v with e | b
  · have hfin : liquidate v = .error (e, v) := by
      unfold liquidate
      rw [hliq]
    rw [hfin]
    exact hInv
  · cases b with
    | false =>
      have hfin : liquidate v = .ok ((), v) := by
        unfold liquidate
        rw [hliq]
      rw [hfin]
      exact hInv
    | true =>
      rcases htv : get_total_value v with e2 | tv
      · have hfin : liquidate v = .error (e2, v) := by
          simp only [liquidate, hliq, htv]
        rw [hfin]
        exact hInv
      · have hent := liquidateLoop_entries_nonneg v.prices
          (v.optimal_cash_threshold * tv) (v.optimal_cash_threshold * tv - v.cash)
          (fun e he => le_of_lt (hInv.2 e he))
          ((sortByVal v.asset_liquidity_value).map Prod.fst) v.cash v.assets hInv.1
        rcases hres : liquidateLoop v.prices (v.optimal_cash_threshold * tv)
            (v.optimal_cash_threshold * tv - v.cash)
            ((sortByVal v.asset_liquidity_value).map Prod.fst) v.cash v.assets with
          ⟨e1, c1, a1⟩ | ⟨c1, a1⟩
        · have hfin : liquidate v = .error (e1, { v with cash := c1, assets := a1 }) := by
            simp only [liquidate, hliq, htv, hres]
          rw [hfin]
          rw [hres] at hent
          simp only [resPair] at hent
          exact ⟨hent, hInv.2⟩
        · rw [hres] at hent
          simp only [resPair] at hent
          rcases htv2 : get_total_value { v with cash := c1, assets := a1 } with e2 | tv2
          · have hfin : liquidate v =
                .error (e2, { v with cash := c1, assets := a1 }) := by
              simp only [liquidate, hliq, htv, hres, htv2]
            rw [hfin]
            exact ⟨hent, hInv.2⟩
          · have hfin : liquidate v = .ok ((), { v with cash := c1, assets := a1 }) := by
              simp only [liquidate, hliq, htv, hres, htv2]
            rw [hfin]
            exact ⟨hent, hInv.2⟩

/-- C7 (amended): the invariant "holdings ≥ 0 and every set price > 0"
is preserved by every operation **when the operation's price argument is
positive and, for `rebalance`, cash is nonnegative**; `liquidateProtocol`
preserves it unconditionally.  The restriction on price arguments is
forced: `setAssetPrice` (and `addSupportedAsset`) perform no validation,
so a non-positive price argument — accepted without error, see C10 —
breaks the invariant directly (see the counterexample).  The cash
restriction on `rebalance` is forced as well: from negative cash the
triggered loop buys a negative quantity, driving holdings below zero. -/
theorem c7_invariant_preservation (v : Vault) (hInv : VaultInv v) :
    (∀ now amount, VaultInv (mint v now amount).2) ∧
    (∀ now amount, VaultInv (resVault (redeem v now amount))) ∧
    (∀ name lv price threshold now, 0 < price →
      VaultInv (resVault (add_supported_asset v name lv price threshold now))) ∧
    (∀ asset threshold, VaultInv (resVault (change_asset_threshold v asset threshold))) ∧
    (∀ asset value, VaultInv (set_asset_liquidity_value v asset value)) ∧
    (∀ asset price now, 0 < price → VaultInv (set_asset_price v asset price now)) ∧
    (0 ≤ v.cash → VaultInv (resVault (rebalance v))) ∧
    VaultInv (resVault (liquidate v)) ∧
    (∀ asset amount, VaultInv (resVault (liquidate_asset v asset amount))) := by
  refine ⟨?_, ?_, ?_, ?_, ?_, ?_, ?_, ?_, ?_⟩
  · intro now amount
    exact hInv
  · intro now amount
    unfold redeem
    by_cases h : v.cash < amount
    · rw [if_pos h]
      exact hInv
    · rw [if_neg h]
      exact hInv
  · intro name lv price threshold now hpos
    unfold add_supported_asset
    by_cases h1 : (dictGet v.assets name).isSome
    · rw [if_pos h1]
      exact hInv
    · rw [if_neg h1]
      by_cases h2 : (100 : ℚ) < threshold
      · rw [if_pos h2]
        exact hInv
      · rw [if_neg h2]
        constructor
        · intro e he
          rcases mem_dictInsert he with h3 | h4
          · exact hInv.1 e h3
          · rw [h4]
        · intro e he
          rcases mem_dictInsert he with h3 | h4
          · exact hInv.2 e h3
          · rw [h4]
            exact hpos
  · intro asset threshold
    unfold change_asset_threshold
    by_cases h1 : (dictGet v.assets asset).isNone
    · rw [if_pos h1]
      exact hInv
    · rw [if_neg h1]
      by_cases h2 : (100 : ℚ) < threshold
      · rw [if_pos h2]
        exact hInv
      · rw [if_neg h2]
        exact hInv
  · intro asset value
    exact hInv
  · intro asset price now hpos
    constructor
    · exact hInv.1
    · intro e he
      rcases mem_dictInsert he with h3 | h4
      · exact hInv.2 e h3
      · rw [h4]
        exact hpos
  · intro hc
    exact rebalance_inv v hc hInv
  · exact liquidate_inv v hInv
  · intro asset amount
    rw [liquidate_asset_state]
    exact hInv

/-- A vault satisfying the data-model invariant, with one asset priced 2. -/
def vaultC7 : Vault :=
  { baseVault with
    cash := 5
    token_supply := 5
    assets := [("AAA", 1)]
    asset_liquidity_value := [("AAA", 1)]
    prices := [("AAA", 2)]
    price_volatility := [("AAA", [(0, 2)])]
    thresholds := [("AAA", 1/2)] }

/-- C7 counterexample: `setAssetPrice` performs no validation, so calling
it with a negative price succeeds and leaves a registered asset with
price −1 — the "price > 0 once set" invariant is **not** preserved by
every operation as claimed. -/
theorem c7_invariant_counterexample :
    VaultInv vaultC7 ∧ ¬ VaultInv (set_asset_price vaultC7 "AAA" (-1) 0) := by
  constructor
  · constructor
    · norm_num [vaultC7, baseVault]
    · norm_num [vaultC7, baseVault]
  · intro hbad
    have hmem : ("AAA", (-1 : ℚ)) ∈ (set_asset_price vaultC7 "AAA" (-1) 0).prices := by
      simp [set_asset_price, dictInsert, vaultC7, baseVault]
    have := hbad.2 _ hmem
    norm_num at this

/-- C7 witness: the amended theorem applied to a concrete state and a
positive price. -/
theorem c7_invariant_preservation_witness :
    VaultInv (set_asset_price vaultC7 "AAA" 3 0) :=
  (c7_invariant_preservation vaultC7
    (by constructor <;> norm_num [vaultC7, baseVault])).2.2.2.2.2.1 "AAA" 3 0 (by norm_num)

/-- C10 witness: the theorem applied to an unregistered name and a
negative price — it still succeeds, records the price, and leaves other
names alone. -/
theorem c10_set_asset_price_total_witness :
    dictGet (set_asset_price baseVault "AAA" (-5) 0).prices "AAA" = some (-5) ∧
    dictGet (set_asset_price baseVault "AAA" (-5) 0).prices "ZZZ" =
      dictGet baseVault.prices "ZZZ" :=
  ⟨(c10_set_asset_price_total baseVault "AAA" (-5) 0).2.1,
   (c10_set_asset_price_total baseVault "AAA" (-5) 0).2.2.1 "ZZZ" (by decide)⟩
